import Mathlib

/-!
# Verification of the qulacs worker's translation, execution and encoding layers

Shallow embedding of the two source files of the repository:

* `src/results.rs` — the outcome encoder (`convert_shot`, `convert_shots`,
  `convert_sample`, `convert_samples`).  Machine words (`u64`) are modelled as
  `Nat`; a Rust `Vec<u8>` of packed bytes is a `List Nat` whose members are
  byte values.  The `bitvec` pipeline (`BitVec::<_, Lsb0>::from_vec`,
  `.chunks(64)`, collect into `BitVec<u8, Msb0>`, `.into_vec()`) is embedded
  by explicit bit lists: a `u64` expands to its 64 bits least-significant
  first; collecting bits into `Msb0` bytes places bit `k` of a byte-chunk at
  weight `2 ^ (7 - k)` and zero-pads the final byte.

* `src/main.rs` — the gate translator (`convert_circuit`), the per-shot and
  bulk execution drivers (`simulate_circuit`), the RNG discipline
  (`new_rng`, `simulate_circuits`) and the top-level `run` dispatcher.
  The external collaborators (the qulacs simulator, the fasteval evaluator,
  the `SmallRng` generator, process entropy and the file system) are
  parameters of the embedded functions, so every theorem is quantified over
  their behaviour.  Rust panics (`unwrap`, `expect`, `unimplemented!`) and
  `?`-propagated errors are modelled by `Option`/abort values.
-/

/-! ## Chunking (the semantics of `bitvec`'s `chunks`)

`chunks n l` splits `l` into consecutive runs of `n` elements, the last run
possibly shorter; it is total and structural (fuel = list length) so that it
reduces inside `decide`/`rfl`. -/

def chunksFuel (n : Nat) : Nat → List α → List (List α)
  | 0, _ => []
  | _, [] => []
  | fuel + 1, a :: l => ((a :: l).take n) :: chunksFuel n fuel ((a :: l).drop n)

def chunks (n : Nat) (l : List α) : List (List α) :=
  chunksFuel n l.length l

theorem chunksFuel_nil (n fuel : Nat) : chunksFuel n fuel ([] : List α) = [] := by
  cases fuel <;> rfl

theorem chunksFuel_fuel_irrel (n : Nat) (hn : 1 ≤ n) :
    ∀ (f1 f2 : Nat) (l : List α), l.length ≤ f1 → l.length ≤ f2 →
      chunksFuel n f1 l = chunksFuel n f2 l := by
  intro f1
  induction f1 with
  | zero =>
    intro f2 l hl _
    have : l = [] := List.length_eq_zero.mp (Nat.le_zero.mp hl)
    subst this
    rw [chunksFuel_nil, chunksFuel_nil]
  | succ f ih =>
    intro f2 l hl hl2
    cases l with
    | nil => rw [chunksFuel_nil, chunksFuel_nil]
    | cons a t =>
      cases f2 with
      | zero => simp at hl2
      | succ f2 =>
        show ((a :: t).take n) :: chunksFuel n f ((a :: t).drop n)
            = ((a :: t).take n) :: chunksFuel n f2 ((a :: t).drop n)
        have hd1 : ((a :: t).drop n).length ≤ f := by
          simp only [List.length_drop, List.length_cons] at *
          omega
        have hd2 : ((a :: t).drop n).length ≤ f2 := by
          simp only [List.length_drop, List.length_cons] at *
          omega
        rw [ih f2 _ hd1 hd2]

theorem chunks_nil (n : Nat) : chunks n ([] : List α) = [] := rfl

theorem chunks_cons (n : Nat) (hn : 1 ≤ n) (l : List α) (hl : l ≠ []) :
    chunks n l = l.take n :: chunks n (l.drop n) := by
  cases l with
  | nil => exact absurd rfl hl
  | cons a t =>
    show chunksFuel n (a :: t).length (a :: t) = _
    simp only [List.length_cons]
    show ((a :: t).take n) :: chunksFuel n t.length ((a :: t).drop n) = _
    congr 1
    exact chunksFuel_fuel_irrel n hn t.length ((a :: t).drop n).length _
      (by simp only [List.length_drop, List.length_cons]; omega) (le_refl _)

/-- A list of length exactly `n ≥ 1` is a single chunk. -/
theorem chunks_eq_self (n : Nat) (hn : 1 ≤ n) (l : List α) (hl : l.length = n) :
    chunks n l = [l] := by
  have hne : l ≠ [] := by
    intro h
    subst h
    simp at hl
    omega
  rw [chunks_cons n hn l hne]
  rw [← hl, List.take_length, List.drop_length, chunks_nil]

/-- Chunking a concatenation of equal-length blocks recovers the blocks. -/
theorem chunks_flatten_map {β : Type} (n : Nat) (hn : 1 ≤ n) (f : β → List α)
    (hf : ∀ w, (f w).length = n) :
    ∀ ws : List β, chunks n ((ws.map f).flatten) = ws.map f := by
  intro ws
  induction ws with
  | nil => simp [chunks_nil]
  | cons w ws ih =>
    have hlen : (f w).length = n := hf w
    have hne : (f w ++ (ws.map f).flatten) ≠ [] := by
      intro h
      have := congrArg List.length h
      simp [hlen] at this
      omega
    simp only [List.map_cons, List.flatten_cons]
    rw [chunks_cons n hn _ hne]
    have htake : (f w ++ (ws.map f).flatten).take n = f w := List.take_left' hlen
    have hdrop : (f w ++ (ws.map f).flatten).drop n = (ws.map f).flatten :=
      List.drop_left' hlen
    rw [htake, hdrop, ih]

/-- Element access into chunks: the `j`-th chunk is `(l.drop (n*j)).take n`. -/
theorem chunks_getElem? (n : Nat) (hn : 1 ≤ n) :
    ∀ (j : Nat) (l : List α),
      (chunks n l)[j]? = if n * j < l.length then some ((l.drop (n * j)).take n) else none := by
  intro j
  induction j with
  | zero =>
    intro l
    cases l with
    | nil => simp [chunks_nil]
    | cons a t =>
      rw [chunks_cons n hn _ (by simp)]
      simp
  | succ j ih =>
    intro l
    cases l with
    | nil => simp [chunks_nil]
    | cons a t =>
      rw [chunks_cons n hn _ (by simp)]
      rw [List.getElem?_cons_succ, ih]
      have hlen : ((a :: t).drop n).length = (a :: t).length - n := by
        simp [List.length_drop]
      rw [List.drop_drop]
      have harith : n + n * j = n * (j + 1) := by ring
      rw [harith]
      by_cases h : n * (j + 1) < (a :: t).length
      · rw [if_pos (by omega), if_pos h]
      · rw [if_neg (by omega), if_neg h]

/-! ## Byte packing (the semantics of collecting into `BitVec<u8, Msb0>` and
`into_vec`): each chunk of up to 8 bits becomes one byte, bit `k` of the chunk
at weight `2 ^ (7 - k)`; missing low bits of a final partial chunk are zero. -/

def byteMsbAux : List Bool → Nat → Nat
  | [], _ => 0
  | b :: t, w => (if b then 2 ^ w else 0) + byteMsbAux t (w - 1)

def byteMsb (c : List Bool) : Nat :=
  byteMsbAux c 7

/-- Pack a bit list into `Msb0` bytes, as `BitVec<u8, Msb0>::into_vec` does. -/
def intoVecMsb0 (bits : List Bool) : List Nat :=
  (chunks 8 bits).map byteMsb

theorem byteMsbAux_lt (c : List Bool) :
    ∀ w : Nat, c.length ≤ w + 1 → byteMsbAux c w < 2 ^ (w + 1) := by
  induction c with
  | nil =>
    intro w _
    simp only [byteMsbAux]
    exact Nat.pos_pow_of_pos _ (by omega)
  | cons b t ih =>
    intro w hlen
    simp only [byteMsbAux]
    have hpow : 2 ^ w + 2 ^ w = 2 ^ (w + 1) := by
      rw [Nat.pow_succ]
      omega
    cases t with
    | nil =>
      simp only [byteMsbAux]
      have hw : 0 < 2 ^ w := Nat.pos_pow_of_pos _ (by omega)
      split <;> omega
    | cons b' t' =>
      have hw : 1 ≤ w := by
        simp only [List.length_cons] at hlen
        omega
      have ht : (b' :: t').length ≤ (w - 1) + 1 := by
        simp only [List.length_cons] at *
        omega
      have hrec := ih (w - 1) ht
      have heq : (w - 1) + 1 = w := by omega
      rw [heq] at hrec
      split <;> omega

theorem testBit_pow_add_self (w : Nat) (x : Nat) (hx : x < 2 ^ w) :
    Nat.testBit (2 ^ w + x) w = true := by
  rw [Nat.testBit_to_div_mod]
  have hpos : 0 < 2 ^ w := Nat.pos_pow_of_pos _ (by omega)
  have hdiv : (2 ^ w + x) / 2 ^ w = 1 := by
    rw [Nat.add_comm, Nat.add_div_right _ hpos, Nat.div_eq_of_lt hx]
  simp [hdiv]

theorem testBit_low_add (w j : Nat) (x : Nat) (hj : j < w) :
    Nat.testBit (2 ^ w + x) j = Nat.testBit x j := by
  rw [Nat.testBit_to_div_mod, Nat.testBit_to_div_mod]
  have hsplit : 2 ^ w = 2 ^ j * 2 ^ (w - j) := by
    rw [← Nat.pow_add]
    congr 1
    omega
  have hpos : 0 < 2 ^ j := Nat.pos_pow_of_pos _ (by omega)
  rw [Nat.add_comm, hsplit, Nat.add_mul_div_left x _ hpos]
  have heven : 2 ^ (w - j) % 2 = 0 := by
    have hwj : w - j = (w - j - 1) + 1 := by omega
    rw [hwj, Nat.pow_succ]
    omega
  simp only [decide_eq_decide]
  omega

/-- The bit content of one packed byte: bit `k` of a chunk `c` (of length at
most `w+1`) sits at weight position `w - k`. -/
theorem testBit_byteMsbAux (c : List Bool) :
    ∀ (w k : Nat), k < c.length → c.length ≤ w + 1 →
      Nat.testBit (byteMsbAux c w) (w - k) = c.getD k false := by
  induction c with
  | nil =>
    intro w k hk _
    simp at hk
  | cons b t ih =>
    intro w k hk hlen
    simp only [byteMsbAux]
    cases k with
    | zero =>
      simp only [Nat.sub_zero, List.getD_cons_zero]
      have hxlt : byteMsbAux t (w - 1) < 2 ^ w := by
        cases t with
        | nil =>
          simp only [byteMsbAux]
          exact Nat.pos_pow_of_pos _ (by omega)
        | cons b' t' =>
          have hw : 1 ≤ w := by
            simp only [List.length_cons] at hlen
            omega
          have ht : (b' :: t').length ≤ (w - 1) + 1 := by
            simp only [List.length_cons] at *
            omega
          have hrec := byteMsbAux_lt _ (w - 1) ht
          have hweq : (w - 1) + 1 = w := by omega
          rwa [hweq] at hrec
      cases b with
      | true =>
        rw [if_pos rfl]
        exact testBit_pow_add_self w _ hxlt
      | false =>
        rw [if_neg Bool.false_ne_true, Nat.zero_add]
        exact Nat.testBit_lt_two_pow hxlt
    | succ k =>
      have hkt : k < t.length := by
        simp only [List.length_cons] at hk
        omega
      have hw : 1 ≤ w := by
        simp only [List.length_cons] at hlen
        omega
      have hlt : t.length ≤ (w - 1) + 1 := by
        simp only [List.length_cons] at hlen
        omega
      have hsub : w - (k + 1) = (w - 1) - k := by omega
      have hj : (w - 1) - k < w := by omega
      rw [List.getD_cons_succ, hsub, ← ih (w - 1) k hkt hlt]
      cases b with
      | true =>
        rw [if_pos rfl]
        exact testBit_low_add w _ _ hj
      | false =>
        rw [if_neg Bool.false_ne_true, Nat.zero_add]

/-! ## `src/results.rs`: the outcome encoder -/

/-- The 64 bits of a `u64` word, least-significant first
(`BitVec::<_, Lsb0>` element expansion). -/
def u64BitsLsb (w : Nat) : List Bool :=
  (List.range 64).map (Nat.testBit w)

/-- `BitVec::<_, Lsb0>::from_vec`: concatenate each word's 64 bits. -/
def fromVecLsb (ws : List Nat) : List Bool :=
  (ws.map u64BitsLsb).flatten

/-- `convert_shot` (src/results.rs lines 30-36): view the word array as a
`Lsb0` bit vector, take the first bit of each 64-bit chunk (one chunk per
word), and collect those bits into `Msb0` bytes. -/
def convert_shot (shot : List Nat) : List Nat :=
  let bits : List Bool := (chunks 64 (fromVecLsb shot)).map (fun c => c.headD false)
  intoVecMsb0 bits

/-- `OutcomeArray` (src/results.rs lines 22-26). -/
structure OutcomeArray where
  width : Nat
  array : List (List Nat)
deriving DecidableEq

/-- `convert_shots` (src/results.rs lines 40-46): the width is the length of
the first shot; `shots.first().unwrap()` panics on an empty shot list, which
is modelled by `none`. -/
def convert_shots (shots : List (List Nat)) : Option OutcomeArray :=
  match shots with
  | [] => none
  | s :: _ => some ⟨s.length, shots.map convert_shot⟩

/-- `convert_sample` (src/results.rs lines 50-58): expand the sampled `u64`
into its 64 bits least-significant first (`from_element`), re-chunk and
flatten (`chunks(64).flat_map(to_bitvec)`, the identity on 64 bits), collect
into `Msb0` bytes and truncate the byte list to `trunc` bytes. -/
def convert_sample (trunc : Nat) (sample : Nat) : List Nat :=
  let bits : List Bool := ((chunks 64 (u64BitsLsb sample)).map id).flatten
  (intoVecMsb0 bits).take trunc

/-- `convert_samples` (src/results.rs lines 62-74): truncation byte count is
`width/8`, plus one if `width % 8 > 0`. -/
def convert_samples (width : Nat) (samples : List Nat) : OutcomeArray :=
  let div := width / 8
  let rem := width % 8
  let trunc := div + (if rem > 0 then 1 else 0)
  ⟨width, samples.map (convert_sample trunc)⟩

/-! ## `src/main.rs`: data model -/

/-- The operation kinds distinguished by `convert_circuit`'s `match`; every
other `tket` operation falls into the `unimplemented!()` arm, represented
uniformly by `Other`. -/
inductive OpType where
  | X | Y | Z | H | CX | PhasedX | ZZPhase | Measure | Other
deriving DecidableEq

/-- A `tket_json_rs` `Command`: an operation kind and the argument groups
(`cmd.args`), each a register path of integer indices.  The symbolic
parameter strings are not represented: the expression evaluator is opaque
and is passed as a function (see `eval_param` arguments below). -/
structure Command where
  op_type : OpType
  args : List (List Int)
deriving DecidableEq

/-- `get_arg` (src/main.rs lines 39-43): `cmd.args[index].1[0]` converted to
`u32`; the indexing panics and the `try_into` `expect`s, both modelled by
`none`. -/
def get_arg (cmd : Command) (index : Nat) : Option Nat :=
  match cmd.args[index]? with
  | none => none
  | some grp =>
    match grp[0]? with
    | none => none
    | some v => if 0 ≤ v ∧ v < 2 ^ 32 then some v.toNat else none

/-- The qulacs Pauli identifiers used by `new_pauli_rotation_gate`. -/
inductive QPauli where
  | I | X | Y | Z
deriving DecidableEq

/-- Primitive qulacs gate constructs produced by the translator, over an
angle scalar type `α` (`f64` in the source; theorems take any ring).
`Merge` is qulacs' left-to-right gate merge (`merge(a, b)`). -/
inductive Gate (α : Type) where
  | X (q : Nat)
  | Y (q : Nat)
  | Z (q : Nat)
  | H (q : Nat)
  | CNOT (control target : Nat)
  | RX (q : Nat) (angle : α)
  | RZ (q : Nat) (angle : α)
  | PauliRotation (qs : List Nat) (ps : List QPauli) (angle : α)
  | Identity (q : Nat)
  | Measurement (q reg : Nat) (seed : Nat)
  | Merge (g1 g2 : Gate α)
deriving DecidableEq

/-- A built qulacs circuit: declared qubit count and the gates added in
program order (`new_quantum_circuit` + `add_gate_copy`). -/
structure QuantumCircuit (α : Type) where
  n_qubits : Nat
  gates : List (Gate α)
deriving DecidableEq

/-- A `SerialCircuit`: qubit labels, classical-bit labels, commands. -/
structure SerialCircuit where
  qubits : List String
  bits : List String
  commands : List Command
deriving DecidableEq

/-- `BackendResult` (src/results.rs lines 8-14). -/
structure BackendResult where
  qubits : List String
  bits : List String
  shots : OutcomeArray
deriving DecidableEq

/-! ## RNG stream

`Box<dyn RngCore>` is modelled as an infinite stream of draws plus a cursor:
`rng.random()` returns the value at the cursor and advances it.  This captures
exactly the sequential single-owner draw discipline of the source. -/

structure Rng where
  stream : Nat → Nat
  pos : Nat

def Rng.draw (r : Rng) : Nat × Rng :=
  (r.stream r.pos, ⟨r.stream, r.pos + 1⟩)

/-- `new_rng` (src/main.rs lines 74-80): a seeded `SmallRng` stream (the
deterministic function `smallRng` of the seed) or the process-entropy stream
`entropy` (`rand::rng()`). -/
def new_rng (smallRng : Nat → Nat → Nat) (entropy : Nat → Nat)
    (seed : Option Nat) : Rng :=
  match seed with
  | some s => ⟨smallRng s, 0⟩
  | none => ⟨entropy, 0⟩

/-! ## Gate translation (`convert_circuit`, src/main.rs lines 82-145)

The expression evaluator (`Evaluator::eval_param`) is opaque: it is passed as
a state-threading function `eval : Command → Nat → σ → Option α × σ` (the
mutable `Evaluator` state is `σ`, a parse failure before `.unwrap()` is
`none`).  The state threading records evaluation order: the PhasedX arm feeds
the state returned by the parameter-0 evaluation into the parameter-1
evaluation, exactly as the two `eval_param` calls do in the source. -/

/-- One iteration of the translation loop, single-process (per-shot) build:
the `match command.op.op_type` of src/main.rs lines 91-139 with the
`cfg(not(feature = "mpi"))` Measure arm (lines 130-137). -/
def convert_command {α σ : Type} [Neg α] [Mul α] (pi : α)
    (eval : Command → Nat → σ → Option α × σ)
    (cmd : Command) (ev : σ) (rng : Rng) : Option (Gate α × σ × Rng) :=
  match cmd.op_type with
  | OpType.X =>
    match get_arg cmd 0 with
    | none => none
    | some q => some (Gate.X q, ev, rng)
  | OpType.Y =>
    match get_arg cmd 0 with
    | none => none
    | some q => some (Gate.Y q, ev, rng)
  | OpType.Z =>
    match get_arg cmd 0 with
    | none => none
    | some q => some (Gate.Z q, ev, rng)
  | OpType.H =>
    match get_arg cmd 0 with
    | none => none
    | some q => some (Gate.H q, ev, rng)
  | OpType.CX =>
    match get_arg cmd 0 with
    | none => none
    | some control =>
      match get_arg cmd 1 with
      | none => none
      | some target => some (Gate.CNOT control target, ev, rng)
  | OpType.PhasedX =>
    match get_arg cmd 0 with
    | none => none
    | some index =>
      match eval cmd 0 ev with
      | (none, _) => none
      | (some v0, ev1) =>
        let alpha := -v0 * pi
        match eval cmd 1 ev1 with
        | (none, _) => none
        | (some v1, ev2) =>
          let beta := -v1 * pi
          some (Gate.Merge (Gate.Merge (Gate.RZ index beta) (Gate.RX index alpha))
                  (Gate.RZ index (-beta)), ev2, rng)
  | OpType.ZZPhase =>
    match get_arg cmd 0 with
    | none => none
    | some index1 =>
      match get_arg cmd 1 with
      | none => none
      | some index2 =>
        match eval cmd 0 ev with
        | (none, _) => none
        | (some v0, ev1) =>
          let alpha := -v0 * pi
          some (Gate.PauliRotation [index1, index2] [QPauli.Z, QPauli.Z] alpha, ev1, rng)
  | OpType.Measure =>
    match get_arg cmd 0 with
    | none => none
    | some index =>
      match get_arg cmd 1 with
      | none => none
      | some reg =>
        let (seed, rng') := rng.draw
        some (Gate.Measurement index reg seed, ev, rng')
  | OpType.Other => none

/-- One iteration of the translation loop, distributed (bulk-sampling, `mpi`)
build: identical except that the Measure arm (src/main.rs lines 124-129)
builds `new_identity_gate(index)` — it reads only argument 0 and never
touches the RNG (`_rng` is unused in that build), so no `Rng` is threaded. -/
def convert_command_mpi {α σ : Type} [Neg α] [Mul α] (pi : α)
    (eval : Command → Nat → σ → Option α × σ)
    (cmd : Command) (ev : σ) : Option (Gate α × σ) :=
  match cmd.op_type with
  | OpType.X =>
    match get_arg cmd 0 with
    | none => none
    | some q => some (Gate.X q, ev)
  | OpType.Y =>
    match get_arg cmd 0 with
    | none => none
    | some q => some (Gate.Y q, ev)
  | OpType.Z =>
    match get_arg cmd 0 with
    | none => none
    | some q => some (Gate.Z q, ev)
  | OpType.H =>
    match get_arg cmd 0 with
    | none => none
    | some q => some (Gate.H q, ev)
  | OpType.CX =>
    match get_arg cmd 0 with
    | none => none
    | some control =>
      match get_arg cmd 1 with
      | none => none
      | some target => some (Gate.CNOT control target, ev)
  | OpType.PhasedX =>
    match get_arg cmd 0 with
    | none => none
    | some index =>
      match eval cmd 0 ev with
      | (none, _) => none
      | (some v0, ev1) =>
        let alpha := -v0 * pi
        match eval cmd 1 ev1 with
        | (none, _) => none
        | (some v1, ev2) =>
          let beta := -v1 * pi
          some (Gate.Merge (Gate.Merge (Gate.RZ index beta) (Gate.RX index alpha))
                  (Gate.RZ index (-beta)), ev2)
  | OpType.ZZPhase =>
    match get_arg cmd 0 with
    | none => none
    | some index1 =>
      match get_arg cmd 1 with
      | none => none
      | some index2 =>
        match eval cmd 0 ev with
        | (none, _) => none
        | (some v0, ev1) =>
          let alpha := -v0 * pi
          some (Gate.PauliRotation [index1, index2] [QPauli.Z, QPauli.Z] alpha, ev1)
  | OpType.Measure =>
    match get_arg cmd 0 with
    | none => none
    | some index => some (Gate.Identity index, ev)
  | OpType.Other => none

/-- The translation loop over `circuit.commands`, per-shot build: gates are
accumulated in program order, the evaluator state and the RNG are threaded
through sequentially. -/
def convert_commands {α σ : Type} [Neg α] [Mul α] (pi : α)
    (eval : Command → Nat → σ → Option α × σ) :
    List Command → σ → Rng → Option (List (Gate α) × Rng)
  | [], _, rng => some ([], rng)
  | c :: cs, ev, rng =>
    match convert_command pi eval c ev rng with
    | none => none
    | some (g, ev', rng') =>
      match convert_commands pi eval cs ev' rng' with
      | none => none
      | some (gs, rng'') => some (g :: gs, rng'')

/-- `convert_circuit` (src/main.rs lines 82-145), per-shot build: a circuit
sized to `circuit.qubits.len()` holding the translated gates; the evaluator
starts from the fresh `Evaluator::new()` state `evalInit`. -/
def convert_circuit {α σ : Type} [Neg α] [Mul α] (pi : α)
    (eval : Command → Nat → σ → Option α × σ) (evalInit : σ)
    (circuit : SerialCircuit) (rng : Rng) : Option (QuantumCircuit α × Rng) :=
  match convert_commands pi eval circuit.commands evalInit rng with
  | none => none
  | some (gs, rng') => some (⟨circuit.qubits.length, gs⟩, rng')

/-- The translation loop, `mpi` build (no RNG threading). -/
def convert_commands_mpi {α σ : Type} [Neg α] [Mul α] (pi : α)
    (eval : Command → Nat → σ → Option α × σ) :
    List Command → σ → Option (List (Gate α))
  | [], _ => some []
  | c :: cs, ev =>
    match convert_command_mpi pi eval c ev with
    | none => none
    | some (g, ev') =>
      match convert_commands_mpi pi eval cs ev' with
      | none => none
      | some gs => some (g :: gs)

/-- `convert_circuit`, `mpi` build. -/
def convert_circuit_mpi {α σ : Type} [Neg α] [Mul α] (pi : α)
    (eval : Command → Nat → σ → Option α × σ) (evalInit : σ)
    (circuit : SerialCircuit) : Option (QuantumCircuit α) :=
  match convert_commands_mpi pi eval circuit.commands evalInit with
  | none => none
  | some gs => some ⟨circuit.qubits.length, gs⟩

/-! ## Shot execution (`simulate_circuit`, src/main.rs lines 147-184)

The qulacs state evolution is opaque.  In the per-shot build each loop
iteration does `set_zero_state` then `update_quantum_state(circuit, state,
seed)` then `get_classical_register(state)`; since the state is re-zeroed
every iteration, the register read is a pure function `sim` of the circuit
and the per-shot seed. -/

/-- The `for _ in 0..n_shot` loop of the per-shot build (src/main.rs lines
170-176): one fresh draw per iteration, passed to the state update; the
classical registers are collected in shot order. -/
def run_shots {α : Type} (sim : QuantumCircuit α → Nat → List Nat)
    (qc : QuantumCircuit α) : Nat → Rng → List (List Nat) × Rng
  | 0, rng => ([], rng)
  | n + 1, rng =>
    let (seed, rng1) := rng.draw
    let register := sim qc seed
    let (rest, rng2) := run_shots sim qc n rng1
    (register :: rest, rng2)

/-- `simulate_circuit`, per-shot (`cfg(not(feature = "mpi"))`) build
(src/main.rs lines 147-184): translate, run the shot loop, encode with
`convert_shots`. -/
def simulate_circuit {α σ : Type} [Neg α] [Mul α]
    (sim : QuantumCircuit α → Nat → List Nat) (pi : α)
    (eval : Command → Nat → σ → Option α × σ) (evalInit : σ)
    (circuit : SerialCircuit) (n_shot : Nat) (rng : Rng) :
    Option (BackendResult × Rng) :=
  match convert_circuit pi eval evalInit circuit rng with
  | none => none
  | some (qc, rng1) =>
    let (shots, rng2) := run_shots sim qc n_shot rng1
    match convert_shots shots with
    | none => none
    | some oa => some ({ qubits := circuit.qubits, bits := circuit.bits, shots := oa }, rng2)

/-- `simulate_circuit`, `mpi` build (src/main.rs lines 159-166): one state
update with a fresh draw, then one `quantum_state_sampling` call with a
second fresh draw; `sampler qc updateSeed n_shot samplingSeed` is the opaque
sampling outcome.  The result is encoded by `convert_samples` applied to
`n_shot` — the source passes the shot count, not the register width, as the
`width` argument. -/
def simulate_circuit_mpi {α σ : Type} [Neg α] [Mul α]
    (sampler : QuantumCircuit α → Nat → Nat → Nat → List Nat) (pi : α)
    (eval : Command → Nat → σ → Option α × σ) (evalInit : σ)
    (circuit : SerialCircuit) (n_shot : Nat) (rng : Rng) :
    Option (BackendResult × Rng) :=
  match convert_circuit_mpi pi eval evalInit circuit with
  | none => none
  | some qc =>
    let (updateSeed, rng1) := rng.draw
    let (samplingSeed, rng2) := rng1.draw
    let samples := sampler qc updateSeed n_shot samplingSeed
    some ({ qubits := circuit.qubits, bits := circuit.bits,
            shots := convert_samples n_shot samples }, rng2)

/-- The circuit-list loop of `simulate_circuits` (src/main.rs lines 192-195):
`Result`-collecting map threading the single RNG. -/
def simulate_circuits_go {α σ : Type} [Neg α] [Mul α]
    (sim : QuantumCircuit α → Nat → List Nat) (pi : α)
    (eval : Command → Nat → σ → Option α × σ) (evalInit : σ)
    (n_shot : Nat) : List SerialCircuit → Rng → Option (List BackendResult)
  | [], _ => some []
  | c :: cs, rng =>
    match simulate_circuit sim pi eval evalInit c n_shot rng with
    | none => none
    | some (r, rng') =>
      match simulate_circuits_go sim pi eval evalInit n_shot cs rng' with
      | none => none
      | some rs => some (r :: rs)

/-- `simulate_circuits` (src/main.rs lines 186-196), per-shot build: create
the run's single RNG from the optional seed, then fold the circuits. -/
def simulate_circuits {α σ : Type} [Neg α] [Mul α]
    (sim : QuantumCircuit α → Nat → List Nat) (pi : α)
    (eval : Command → Nat → σ → Option α × σ) (evalInit : σ)
    (smallRng : Nat → Nat → Nat) (entropy : Nat → Nat)
    (list_circ : List SerialCircuit) (n_shot : Nat) (seed : Option Nat) :
    Option (List BackendResult) :=
  simulate_circuits_go sim pi eval evalInit n_shot list_circ
    (new_rng smallRng entropy seed)

/-! ## Supporting lemmas on the encoder -/

set_option maxRecDepth 100000

theorem u64BitsLsb_length (w : Nat) : (u64BitsLsb w).length = 64 := by
  simp [u64BitsLsb]

theorem u64BitsLsb_getElem? (w i : Nat) (h : i < 64) :
    (u64BitsLsb w)[i]? = some (Nat.testBit w i) := by
  simp [u64BitsLsb, List.getElem?_range h]

theorem u64BitsLsb_headD (w : Nat) : (u64BitsLsb w).headD false = Nat.testBit w 0 := by
  rw [List.headD_eq_head?_getD, List.head?_eq_getElem?, u64BitsLsb_getElem? w 0 (by omega)]
  rfl

/-- The first bit of each 64-bit chunk of the concatenated `Lsb0` expansion
is the low bit of the corresponding word. -/
theorem chunks64_headD (shot : List Nat) :
    (chunks 64 (fromVecLsb shot)).map (fun c => c.headD false)
      = shot.map (fun w => Nat.testBit w 0) := by
  rw [fromVecLsb, chunks_flatten_map 64 (by omega) u64BitsLsb u64BitsLsb_length shot]
  rw [List.map_map]
  have : ((fun c => List.headD c false) ∘ u64BitsLsb) = fun w => Nat.testBit w 0 := by
    funext w
    exact u64BitsLsb_headD w
  rw [this]

/-- Bit-level content of `Msb0` byte packing: bit `i` of the input ends at
byte `i / 8`, weight position `7 - i % 8`. -/
theorem intoVecMsb0_testBit (bits : List Bool) (i : Nat) (h : i < bits.length) :
    Nat.testBit (((intoVecMsb0 bits)[i / 8]?).getD 0) (7 - i % 8) = bits.getD i false := by
  have hdm : 8 * (i / 8) + i % 8 = i := Nat.div_add_mod i 8
  have hmod : i % 8 < 8 := Nat.mod_lt _ (by omega)
  rw [intoVecMsb0, List.getElem?_map, chunks_getElem? 8 (by omega) (i / 8) bits]
  rw [if_pos (by omega)]
  show Nat.testBit (byteMsb ((bits.drop (8 * (i / 8))).take 8)) (7 - i % 8)
      = bits.getD i false
  set c : List Bool := (bits.drop (8 * (i / 8))).take 8 with hc
  have hclen : c.length = min 8 (bits.length - 8 * (i / 8)) := by
    rw [hc, List.length_take, List.length_drop]
  have hkc : i % 8 < c.length := by
    rw [hclen]
    omega
  have hcle : c.length ≤ 7 + 1 := by
    rw [hclen]
    omega
  rw [byteMsb, testBit_byteMsbAux c 7 (i % 8) hkc hcle]
  rw [List.getD_eq_getElem?_getD, List.getD_eq_getElem?_getD, hc,
    List.getElem?_take_of_lt hmod, List.getElem?_drop]
  rw [show 8 * (i / 8) + i % 8 = i from hdm]

/-- C1.  `convert_shot` packs the word array's bit values (the low bit of
each word, in word order) most-significant-bit-first into bytes: logical bit
`i` lands in byte `i / 8` at weight `2 ^ (7 - i % 8)` (so bit 0 is the most
significant bit of the first byte), and the three worked examples of the
spec hold. -/
theorem convert_shot_spec (shot : List Nat) (i : Nat) (h : i < shot.length) :
    Nat.testBit (((convert_shot shot)[i / 8]?).getD 0) (7 - i % 8)
        = decide (shot.getD i 0 % 2 = 1)
    ∧ convert_shot [1, 0, 0, 0, 0, 0, 0, 0] = [128]
    ∧ convert_shot [1, 1, 0, 0, 0, 0, 0, 0] = [192]
    ∧ convert_shot [0, 0, 0, 0, 0, 0, 0, 1, 1] = [1, 128] := by
  refine ⟨?_, by decide, by decide, by decide⟩
  show Nat.testBit
      (((intoVecMsb0 ((chunks 64 (fromVecLsb shot)).map (fun c => c.headD false)))[i / 8]?).getD 0)
      (7 - i % 8) = _
  rw [chunks64_headD shot]
  have hlen : (shot.map (fun w => Nat.testBit w 0)).length = shot.length := by
    simp
  rw [intoVecMsb0_testBit _ i (by omega)]
  rw [List.getD_eq_getElem?_getD, List.getElem?_map, List.getElem?_eq_getElem h]
  rw [List.getD_eq_getElem?_getD, List.getElem?_eq_getElem h]
  simp [Nat.testBit_zero]

/-- Witness for `convert_shot_spec` at the first worked example: bit 0 of
`[1,0,0,0,0,0,0,0]` is the most significant bit of byte 0. -/
theorem convert_shot_spec_witness :
    Nat.testBit (((convert_shot [1, 0, 0, 0, 0, 0, 0, 0])[0 / 8]?).getD 0) (7 - 0 % 8)
        = decide (([1, 0, 0, 0, 0, 0, 0, 0] : List Nat).getD 0 0 % 2 = 1)
    ∧ convert_shot [1, 0, 0, 0, 0, 0, 0, 0] = [128]
    ∧ convert_shot [1, 1, 0, 0, 0, 0, 0, 0] = [192]
    ∧ convert_shot [0, 0, 0, 0, 0, 0, 0, 1, 1] = [1, 128] :=
  convert_shot_spec [1, 0, 0, 0, 0, 0, 0, 0] 0 (by decide)

/-- C3 counterexample.  With declared width 2 the bulk encoder truncates to
`ceil(2/8) = 1` byte, so sample 512 encodes as `[0]`, not `[0, 64]` as the
claim's worked example states (the in-repo test that produces `[0, 64]`
passes a truncation byte count of 2, i.e. a width of 9 to 16, not width 2). -/
theorem convert_samples_width2_counterexample :
    convert_samples 2 [512] = ⟨2, [[0]]⟩ ∧ convert_samples 2 [512] ≠ ⟨2, [[0, 64]]⟩ := by
  exact ⟨by decide, by decide⟩

/-- C3 (amended).  The bulk encoder expands each sampled integer's 64 bits
least-significant-bit-first, re-packs them most-significant-bit-first into
bytes (bit `i` in byte `i / 8` at weight `2 ^ (7 - i % 8)`) and truncates the
byte list to `ceil(width/8)` bytes, dropping the low-order bytes beyond the
declared width; width 1 gives sample 0 → `[0]` and sample 1 → `[128]`, and a
width of 9 to 16 (here 16, `ceil(16/8) = 2` bytes) gives sample 512 →
`[0, 64]`. -/
theorem convert_samples_spec (width : Nat) (samples : List Nat) (s i : Nat)
    (hi : i < 64) (hbyte : i / 8 < (width + 7) / 8) :
    convert_samples width samples
        = ⟨width, samples.map (convert_sample ((width + 7) / 8))⟩
    ∧ Nat.testBit (((convert_sample ((width + 7) / 8) s)[i / 8]?).getD 0) (7 - i % 8)
        = Nat.testBit s i
    ∧ convert_samples 1 [0] = ⟨1, [[0]]⟩
    ∧ convert_samples 1 [1] = ⟨1, [[128]]⟩
    ∧ convert_samples 16 [512] = ⟨16, [[0, 64]]⟩ := by
  have htrunc : width / 8 + (if width % 8 > 0 then 1 else 0) = (width + 7) / 8 := by
    by_cases h8 : width % 8 > 0 <;> simp [h8] <;> omega
  refine ⟨?_, ?_, by decide, by decide, by decide⟩
  · show (⟨width, samples.map (convert_sample (width / 8 + (if width % 8 > 0 then 1 else 0)))⟩ : OutcomeArray) = _
    rw [htrunc]
  · have hbits : ((chunks 64 (u64BitsLsb s)).map id).flatten = u64BitsLsb s := by
      rw [chunks_eq_self 64 (by omega) (u64BitsLsb s) (u64BitsLsb_length s)]
      simp
    show Nat.testBit
        (((intoVecMsb0 (((chunks 64 (u64BitsLsb s)).map id).flatten)).take
            ((width + 7) / 8))[i / 8]?.getD 0) (7 - i % 8) = _
    rw [hbits, List.getElem?_take_of_lt hbyte]
    rw [intoVecMsb0_testBit (u64BitsLsb s) i (by rw [u64BitsLsb_length]; omega)]
    rw [List.getD_eq_getElem?_getD, u64BitsLsb_getElem? s i hi]
    rfl

/-- Witness for `convert_samples_spec`: width 16, sample 512, logical bit 9
(the set bit of 512) lands in byte 1 at weight position 6 (value 64). -/
theorem convert_samples_spec_witness :
    convert_samples 16 [512]
        = ⟨16, [512].map (convert_sample ((16 + 7) / 8))⟩
    ∧ Nat.testBit (((convert_sample ((16 + 7) / 8) 512)[9 / 8]?).getD 0) (7 - 9 % 8)
        = Nat.testBit 512 9
    ∧ convert_samples 1 [0] = ⟨1, [[0]]⟩
    ∧ convert_samples 1 [1] = ⟨1, [[128]]⟩
    ∧ convert_samples 16 [512] = ⟨16, [[0, 64]]⟩ :=
  convert_samples_spec 16 [512] 512 9 (by decide) (by decide)

/-- C2 (the code, evaluated at a failing input).  In the bulk (`mpi`) build,
`simulate_circuit` passes the shot count to `convert_samples` as the `width`
(src/main.rs line 165: `convert_samples(n_shot as usize, samples)`), so for a
circuit whose classical register has 1 bit, run with 10 shots, the returned
outcome record carries `width = 10`, not the logical register width 1 that
the spec requires. -/
theorem simulate_mpi_width_eq_shot_count :
    (simulate_circuit_mpi (fun _ _ n _ => List.replicate n 0) (0 : ℚ)
        (fun _ _ (e : Unit) => (none, e)) ()
        ⟨["q0"], ["c0"], []⟩ 10 ⟨fun n => n, 0⟩).map (fun p => p.1.shots.width)
      = some 10
    ∧ (⟨["q0"], ["c0"], []⟩ : SerialCircuit).bits.length = 1
    ∧ (10 : Nat) ≠ 1 := by
  exact ⟨by decide, by decide, by decide⟩

/-- C10.  `convert_shots` panics (`shots.first().unwrap()`) on an empty shot
list, so in the per-shot build a shot count of zero never yields an outcome
record: `simulate_circuit` with `n_shot = 0` has no defined result for any
circuit, any simulator and any RNG state. -/
theorem simulate_circuit_zero_shots :
    convert_shots ([] : List (List Nat)) = none
    ∧ ∀ {α σ : Type} [Neg α] [Mul α]
        (sim : QuantumCircuit α → Nat → List Nat) (pi : α)
        (eval : Command → Nat → σ → Option α × σ) (evalInit : σ)
        (circuit : SerialCircuit) (rng : Rng),
        simulate_circuit sim pi eval evalInit circuit 0 rng = none := by
  refine ⟨rfl, ?_⟩
  intro α σ _ _ sim pi eval evalInit circuit rng
  unfold simulate_circuit
  cases h : convert_circuit pi eval evalInit circuit rng with
  | none => rfl
  | some p =>
    obtain ⟨qc, rng1⟩ := p
    rfl

/-! ## Gate translation theorems -/

/-- C4.  A PhasedX command with stored parameters α (parameter 0, evaluated
first: its evaluator state `ev1` feeds the parameter-1 evaluation) and β
(parameter 1) translates to the merge, in left-to-right order, of Rz by
`-(β·π)`, then Rx by `-(α·π)`, then Rz by `β·π`, with the RNG untouched. -/
theorem convert_phasedx_spec {α σ : Type} [Ring α] (pi : α)
    (eval : Command → Nat → σ → Option α × σ)
    (cmd : Command) (ev ev1 ev2 : σ) (rng : Rng) (q : Nat) (v0 v1 : α)
    (hop : cmd.op_type = OpType.PhasedX)
    (hq : get_arg cmd 0 = some q)
    (h0 : eval cmd 0 ev = (some v0, ev1))
    (h1 : eval cmd 1 ev1 = (some v1, ev2)) :
    convert_command pi eval cmd ev rng
      = some (Gate.Merge (Gate.Merge (Gate.RZ q (-(v1 * pi))) (Gate.RX q (-(v0 * pi))))
          (Gate.RZ q (v1 * pi)), ev2, rng) := by
  obtain ⟨op, args⟩ := cmd
  simp only at hop
  subst hop
  simp only [convert_command, hq, h0, h1]
  simp [neg_mul, neg_neg]

/-- Witness for `convert_phasedx_spec` at a concrete command and evaluator. -/
theorem convert_phasedx_spec_witness :
    convert_command (3 : ℚ)
        (fun _ i (e : Nat) => (some (if i = 0 then (5 : ℚ) else 6), e + 1))
        ⟨OpType.PhasedX, [[2]]⟩ 0 ⟨fun n => n, 4⟩
      = some (Gate.Merge (Gate.Merge (Gate.RZ 2 (-((6 : ℚ) * 3))) (Gate.RX 2 (-((5 : ℚ) * 3))))
          (Gate.RZ 2 ((6 : ℚ) * 3)), 2, ⟨fun n => n, 4⟩) :=
  convert_phasedx_spec 3 (fun _ i (e : Nat) => (some (if i = 0 then (5 : ℚ) else 6), e + 1))
    ⟨OpType.PhasedX, [[2]]⟩ 0 1 2 ⟨fun n => n, 4⟩ 2 5 6 rfl rfl rfl rfl

/-- C5.  A Measure command translates, in the single-process per-shot build,
to a measurement primitive on the command's qubit and bit indices whose seed
is the fresh RNG draw taken at translation (the cursor advances by one);
in the bulk-sampling (`mpi`) build it translates to an identity gate on the
qubit index, with no measurement and no RNG interaction. -/
theorem convert_measure_spec {α σ : Type} [Neg α] [Mul α] (pi : α)
    (eval : Command → Nat → σ → Option α × σ)
    (cmd : Command) (ev : σ) (rng : Rng) (q r : Nat)
    (hop : cmd.op_type = OpType.Measure)
    (hq : get_arg cmd 0 = some q)
    (hr : get_arg cmd 1 = some r) :
    convert_command pi eval cmd ev rng
        = some (Gate.Measurement q r (rng.stream rng.pos), ev, ⟨rng.stream, rng.pos + 1⟩)
    ∧ convert_command_mpi pi eval cmd ev = some (Gate.Identity q, ev) := by
  obtain ⟨op, args⟩ := cmd
  simp only at hop
  subst hop
  constructor
  · simp only [convert_command, hq, hr, Rng.draw]
  · simp only [convert_command_mpi, hq]

/-- Witness for `convert_measure_spec` at a concrete command and RNG state. -/
theorem convert_measure_spec_witness :
    convert_command (0 : ℚ) (fun _ _ (e : Unit) => (none, e))
        ⟨OpType.Measure, [[0], [1]]⟩ () ⟨fun n => n + 7, 5⟩
        = some (Gate.Measurement 0 1 ((fun n => n + 7) 5), (), ⟨fun n => n + 7, 5 + 1⟩)
    ∧ convert_command_mpi (0 : ℚ) (fun _ _ (e : Unit) => (none, e))
        ⟨OpType.Measure, [[0], [1]]⟩ ()
        = some (Gate.Identity 0, ()) :=
  convert_measure_spec 0 (fun _ _ (e : Unit) => (none, e))
    ⟨OpType.Measure, [[0], [1]]⟩ () ⟨fun n => n + 7, 5⟩ 0 1 rfl rfl rfl

/-! ## RNG draw discipline of the per-shot driver -/

/-- The number of Measure commands in a command list (each consumes exactly
one RNG draw during translation in the per-shot build). -/
def numMeasures : List Command → Nat
  | [] => 0
  | c :: cs => (if c.op_type = OpType.Measure then 1 else 0) + numMeasures cs

/-- Translating one command advances the RNG cursor by one exactly when the
command is a Measure, and never touches the stream. -/
theorem convert_command_rng {α σ : Type} [Neg α] [Mul α] (pi : α)
    (eval : Command → Nat → σ → Option α × σ) (cmd : Command) (ev : σ) (rng : Rng)
    (g : Gate α) (ev' : σ) (rng' : Rng)
    (h : convert_command pi eval cmd ev rng = some (g, ev', rng')) :
    rng'.stream = rng.stream
    ∧ rng'.pos = rng.pos + (if cmd.op_type = OpType.Measure then 1 else 0) := by
  obtain ⟨op, args⟩ := cmd
  cases op <;> simp only [convert_command, Rng.draw] at h <;> repeat' split at h
  all_goals simp_all
  all_goals (obtain ⟨h1, h2, h3⟩ := h; subst h3; simp)

/-- Translating a command list consumes one draw per Measure command, in
command order (the cursor advances by `numMeasures`). -/
theorem convert_commands_rng {α σ : Type} [Neg α] [Mul α] (pi : α)
    (eval : Command → Nat → σ → Option α × σ) :
    ∀ (cmds : List Command) (ev : σ) (rng : Rng) (gs : List (Gate α)) (rng' : Rng),
      convert_commands pi eval cmds ev rng = some (gs, rng') →
      rng'.stream = rng.stream ∧ rng'.pos = rng.pos + numMeasures cmds := by
  intro cmds
  induction cmds with
  | nil =>
    intro ev rng gs rng' h
    simp only [convert_commands] at h
    simp at h
    obtain ⟨h1, h2⟩ := h
    subst h2
    simp [numMeasures]
  | cons c cs ih =>
    intro ev rng gs rng' h
    simp only [convert_commands] at h
    split at h
    · exact absurd h (by simp)
    · rename_i p g1 ev1 rng1 hc
      split at h
      · exact absurd h (by simp)
      · rename_i q gs1 rng2 hcs
        simp at h
        obtain ⟨h1, h2⟩ := h
        subst h2
        have hcmd := convert_command_rng pi eval c ev rng g1 ev1 rng1 hc
        have hrest := ih ev1 rng1 gs1 rng2 hcs
        constructor
        · rw [hrest.1, hcmd.1]
        · rw [hrest.2, hcmd.2]
          simp only [numMeasures]
          omega

/-- The shot loop performs exactly `n` iterations; iteration `i` applies the
(fixed) translated circuit to a freshly zeroed state with the single fresh
draw `stream (pos + i)`, in shot order, and the cursor ends at `pos + n`. -/
theorem run_shots_spec {α : Type} (sim : QuantumCircuit α → Nat → List Nat)
    (qc : QuantumCircuit α) :
    ∀ (n : Nat) (rng : Rng),
      run_shots sim qc n rng
        = ((List.range n).map (fun i => sim qc (rng.stream (rng.pos + i))),
           ⟨rng.stream, rng.pos + n⟩) := by
  intro n
  induction n with
  | zero =>
    intro rng
    obtain ⟨st, p⟩ := rng
    simp [run_shots]
  | succ n ih =>
    intro rng
    obtain ⟨st, p⟩ := rng
    simp only [run_shots, Rng.draw, ih]
    rw [Prod.mk.injEq]
    constructor
    · rw [List.range_succ_eq_map, List.map_cons, List.map_map]
      simp only [Nat.add_zero]
      congr 1
      apply List.map_congr_left
      intro i _
      simp only [Function.comp]
      have harg : p + i.succ = p + 1 + i := by omega
      rw [harg]
    · rw [Rng.mk.injEq]
      constructor
      · rfl
      · omega

/-- C6 (amended).  In the per-shot build, translation consumes one fresh
draw per Measure command — once per run, in gate order, so every measurement
primitive's seed is fixed before the first shot and reused by all shots —
and the shot loop then performs exactly `n` iterations, each applying the
translated circuit to a re-zeroed state with one fresh draw
(`stream (pos + m + i)` for shot `i`, in shot order), reading back the
classical register. -/
theorem per_shot_draw_discipline {α σ : Type} [Neg α] [Mul α]
    (sim : QuantumCircuit α → Nat → List Nat) (pi : α)
    (eval : Command → Nat → σ → Option α × σ) (evalInit : σ)
    (circuit : SerialCircuit) (rng : Rng) (qc : QuantumCircuit α) (rng1 : Rng)
    (n : Nat)
    (h : convert_circuit pi eval evalInit circuit rng = some (qc, rng1)) :
    rng1.stream = rng.stream
    ∧ rng1.pos = rng.pos + numMeasures circuit.commands
    ∧ run_shots sim qc n rng1
        = ((List.range n).map (fun i => sim qc (rng1.stream (rng1.pos + i))),
           ⟨rng1.stream, rng1.pos + n⟩) := by
  have hcmds : ∃ gs, convert_commands pi eval circuit.commands evalInit rng = some (gs, rng1) := by
    simp only [convert_circuit] at h
    split at h
    · exact absurd h (by simp)
    · rename_i gs rng2 heq
      simp at h
      exact ⟨gs, by rw [heq, h.2]⟩
  obtain ⟨gs, hgs⟩ := hcmds
  have hrng := convert_commands_rng pi eval circuit.commands evalInit rng gs rng1 hgs
  exact ⟨hrng.1, hrng.2, run_shots_spec sim qc n rng1⟩

/-- Witness for `per_shot_draw_discipline`: a one-Measure circuit, two
shots; translation advances the cursor from 0 to 1, the two shot draws are
`stream 1` and `stream 2`. -/
theorem per_shot_draw_discipline_witness :
    (⟨fun n => n, 1⟩ : Rng).stream = (⟨fun n => n, 0⟩ : Rng).stream
    ∧ (⟨fun n => n, 1⟩ : Rng).pos
        = (⟨fun n => n, 0⟩ : Rng).pos + numMeasures [⟨OpType.Measure, [[0], [0]]⟩]
    ∧ run_shots (fun _ s => [s]) (⟨1, [Gate.Measurement 0 0 0]⟩ : QuantumCircuit ℚ) 2 ⟨fun n => n, 1⟩
        = ((List.range 2).map
            (fun i => (fun (_ : QuantumCircuit ℚ) s => [s]) ⟨1, [Gate.Measurement 0 0 0]⟩
              ((⟨fun n => n, 1⟩ : Rng).stream ((⟨fun n => n, 1⟩ : Rng).pos + i))),
           ⟨(⟨fun n => n, 1⟩ : Rng).stream, (⟨fun n => n, 1⟩ : Rng).pos + 2⟩) :=
  per_shot_draw_discipline (fun _ s => [s]) (0 : ℚ) (fun _ _ (e : Unit) => (none, e)) ()
    ⟨["q0"], ["c0"], [⟨OpType.Measure, [[0], [0]]⟩]⟩ ⟨fun n => n, 0⟩
    ⟨1, [Gate.Measurement 0 0 0]⟩ ⟨fun n => n, 1⟩ 2 rfl

/-- C6 counterexample.  A circuit with one Measure command run for 2 shots
consumes 3 draws in total — the measurement seed (`stream 0 = 0`, baked into
the single translated gate reused by both shots) plus one draw per shot —
not the `2 * (1 + 1) = 4` draws required if each measurement primitive
consumed a fresh draw in every shot as the claim states. -/
theorem per_shot_measure_draw_counterexample :
    (convert_circuit (0 : ℚ) (fun _ _ (e : Unit) => (none, e)) ()
        ⟨["q0"], ["c0"], [⟨OpType.Measure, [[0], [0]]⟩]⟩ ⟨fun n => n, 0⟩).map
      (fun p => (p.1.gates, p.2.pos)) = some ([Gate.Measurement 0 0 0], 1)
    ∧ (simulate_circuit (fun _ s => [s]) (0 : ℚ) (fun _ _ (e : Unit) => (none, e)) ()
        ⟨["q0"], ["c0"], [⟨OpType.Measure, [[0], [0]]⟩]⟩ 2 ⟨fun n => n, 0⟩).map
      (fun p => p.2.pos) = some 3
    ∧ (3 : Nat) ≠ 2 * (1 + 1) :=
  ⟨by decide, by decide, by decide⟩

/-- C7.  With an explicit seed the whole run is a function of the seed, the
circuits and the shot count alone: the process-entropy source is never
consulted, so two independent runs (arbitrarily different entropy) agree on
the entire list of outcome records — widths, packed shot bytes and order. -/
theorem simulate_circuits_seed_deterministic {α σ : Type} [Neg α] [Mul α]
    (sim : QuantumCircuit α → Nat → List Nat) (pi : α)
    (eval : Command → Nat → σ → Option α × σ) (evalInit : σ)
    (smallRng : Nat → Nat → Nat) (entropy1 entropy2 : Nat → Nat)
    (list_circ : List SerialCircuit) (n_shot : Nat) (s : Nat) :
    simulate_circuits sim pi eval evalInit smallRng entropy1 list_circ n_shot (some s)
      = simulate_circuits sim pi eval evalInit smallRng entropy2 list_circ n_shot (some s) := rfl

/-! ## The top-level `run` dispatcher (src/main.rs lines 198-261)

The file system is opaque; what matters for the spec is the order of the
fallible steps and which files exist afterwards.  Both handled selectors
(`"submit"` and `"submit_single"`) perform the same step sequence: open the
circuit(s) input, parse it, open the `n_shots` input, parse it, simulate
(any translation/evaluation/argument/simulator failure surfaces here),
create the output file, serialize into it, and finally create the empty
completion-marker file.  An environment `fail : RunStep → Bool` says which
step would fail; `?`-propagation aborts at the first failing step.  Any
other selector hits `unimplemented!()` and fails before touching any file.
The trace records the successfully completed steps in order and whether the
output file was created, the output was fully written, and the
completion marker was created. -/

inductive RunStep where
  | openCircuits | parseCircuits | openNShots | parseNShots
  | simulate | createOutput | writeOutput | createDone
deriving DecidableEq

structure RunTrace where
  events : List RunStep
  outputCreated : Bool
  outputWritten : Bool
  doneCreated : Bool
  ok : Bool
deriving DecidableEq

/-- The step sequence shared by the `"submit"` and `"submit_single"` arms of
`run`: each `?`/`Err` aborts with the files created so far left behind. -/
def runSteps (fail : RunStep → Bool) : RunTrace :=
  if fail RunStep.openCircuits then ⟨[], false, false, false, false⟩ else
  if fail RunStep.parseCircuits then
    ⟨[RunStep.openCircuits], false, false, false, false⟩ else
  if fail RunStep.openNShots then
    ⟨[RunStep.openCircuits, RunStep.parseCircuits], false, false, false, false⟩ else
  if fail RunStep.parseNShots then
    ⟨[RunStep.openCircuits, RunStep.parseCircuits, RunStep.openNShots],
      false, false, false, false⟩ else
  if fail RunStep.simulate then
    ⟨[RunStep.openCircuits, RunStep.parseCircuits, RunStep.openNShots,
      RunStep.parseNShots], false, false, false, false⟩ else
  if fail RunStep.createOutput then
    ⟨[RunStep.openCircuits, RunStep.parseCircuits, RunStep.openNShots,
      RunStep.parseNShots, RunStep.simulate], false, false, false, false⟩ else
  if fail RunStep.writeOutput then
    ⟨[RunStep.openCircuits, RunStep.parseCircuits, RunStep.openNShots,
      RunStep.parseNShots, RunStep.simulate, RunStep.createOutput],
      true, false, false, false⟩ else
  if fail RunStep.createDone then
    ⟨[RunStep.openCircuits, RunStep.parseCircuits, RunStep.openNShots,
      RunStep.parseNShots, RunStep.simulate, RunStep.createOutput,
      RunStep.writeOutput], true, true, false, false⟩ else
  ⟨[RunStep.openCircuits, RunStep.parseCircuits, RunStep.openNShots,
    RunStep.parseNShots, RunStep.simulate, RunStep.createOutput,
    RunStep.writeOutput, RunStep.createDone], true, true, true, true⟩

/-- `run` (single-process build): dispatch on the function-name selector;
unknown selectors fail via `unimplemented!()` before any file is touched. -/
def runNode (fail : RunStep → Bool) (function_name : String) : RunTrace :=
  if function_name = "submit" ∨ function_name = "submit_single" then runSteps fail
  else ⟨[], false, false, false, false⟩

/-- C8 (amended).  For every node definition handled by `run`, the
completion marker is created if and only if the whole run succeeds, and on
success it is created strictly after the result output has been written
(the full event order is open inputs, parse, simulate, create output, write
output, create marker); on any failure the run aborts and the marker is
never written — but the output file itself may already exist (partially
written) when the failure strikes at or after output creation. -/
theorem run_done_marker_spec (fail : RunStep → Bool) (fname : String) :
    ((runNode fail fname).doneCreated = true ↔ (runNode fail fname).ok = true)
    ∧ ((runNode fail fname).ok = true →
        (runNode fail fname).events
          = [RunStep.openCircuits, RunStep.parseCircuits, RunStep.openNShots,
             RunStep.parseNShots, RunStep.simulate, RunStep.createOutput,
             RunStep.writeOutput, RunStep.createDone]
        ∧ (runNode fail fname).outputWritten = true) := by
  unfold runNode runSteps
  repeat' split
  all_goals simp

/-- C8 counterexample.  If serialization of the result output fails
(`serde_json::to_writer` erring after `File::create` succeeded), the run
aborts without the marker — but the output file has already been created:
a partial output is emitted, contrary to the claim's "no partial output". -/
theorem run_partial_output_counterexample :
    (runNode (fun s => s == RunStep.writeOutput) "submit").ok = false
    ∧ (runNode (fun s => s == RunStep.writeOutput) "submit").doneCreated = false
    ∧ (runNode (fun s => s == RunStep.writeOutput) "submit").outputCreated = true :=
  ⟨by decide, by decide, by decide⟩

/-- Witness for `run_done_marker_spec`: the all-success environment on the
`"submit"` selector completes with the full event order and the marker. -/
theorem run_done_marker_spec_witness :
    (runNode (fun _ => false) "submit").ok = true
    ∧ (runNode (fun _ => false) "submit").events
        = [RunStep.openCircuits, RunStep.parseCircuits, RunStep.openNShots,
           RunStep.parseNShots, RunStep.simulate, RunStep.createOutput,
           RunStep.writeOutput, RunStep.createDone]
    ∧ (runNode (fun _ => false) "submit").outputWritten = true := by
  refine ⟨by decide, ?_, ?_⟩
  · exact ((run_done_marker_spec (fun _ => false) "submit").2 (by decide)).1
  · exact ((run_done_marker_spec (fun _ => false) "submit").2 (by decide)).2
